import Mathlib

/-!
Verification of the Turtle-Chemistry-World chemical-entity core against its
natural-language specification.  The Python sources under
`turtle_chemistry_world/chemical_entity/` are shallowly embedded below:

* numbers are embedded as `ℚ` (the claims are about exact arithmetic, so the
  floating-point representation is idealised to exact rationals);
* Python `dict`s keyed by identity-compared objects become association lists;
  object identity is modelled by an `id : Nat` field on `Element` and
  `Substance` (two values with distinct ids are distinct entities even when
  all physical fields agree, matching `eq=False` dataclasses);
* code that can raise (`ValueError`, `KeyError`, `ZeroDivisionError`,
  `numpy.linalg.LinAlgError`) is embedded with `Option`/`Except`, returning
  `none`/`.error` exactly where the Python raises.
-/

namespace Chem

/-- Element: identity token plus relative mass (`element.py`).  The `id`
field models Python object identity (`eq=False`). -/
structure Element where
  id : Nat
  relative_mass : ℚ
deriving DecidableEq, Repr

/-- Formula: an element->count mapping plus a valence (`formula.py`).
The mapping is an association list; the Python `dict` has no duplicate
keys, which theorems assume where needed. -/
structure Formula where
  element_count : List (Element × Int)
  valence : Int
deriving DecidableEq, Repr

/-- Derived relative mass of a formula (`Formula.__post_init__`). -/
def Formula.relative_mass (f : Formula) : ℚ :=
  (f.element_count.map (fun p => p.1.relative_mass * (p.2 : ℚ))).sum

/-- Scaling a formula by an integer (`Formula.__mul__`). -/
def Formula.mul (f : Formula) (t : Int) : Formula :=
  { element_count := f.element_count.map (fun p => (p.1, p.2 * t)),
    valence := f.valence * t }

/-- Adding a count into an element->count association list, mirroring the
Python dict update in `Formula.__add__` (increment if present, else add). -/
def addCount (l : List (Element × Int)) (e : Element) (c : Int) :
    List (Element × Int) :=
  match l with
  | [] => [(e, c)]
  | p :: rest => if p.1 = e then (p.1, p.2 + c) :: rest else p :: addCount rest e c

/-- Combining two formulas (`Formula.__add__`): merge the counts, add the
valences. -/
def Formula.add (f g : Formula) : Formula :=
  { element_count := g.element_count.foldl (fun acc p => addCount acc p.1 p.2) f.element_count,
    valence := f.valence + g.valence }

/-- Charge-balanced combination (`Formula.__and__`).  The Python raises
`ValueError` when `self.valence * other.valence >= 0` (embedded as `none`);
otherwise it scales each side by `lcm(|v1|,|v2|)` divided by its own
absolute valence (Python `math.lcm` of signed ints is the lcm of the
absolute values, and `//` on the nonnegative ints involved is exact). -/
def Formula.balance_combine (f g : Formula) : Option Formula :=
  if 0 ≤ f.valence * g.valence then none
  else
    let L : Nat := Nat.lcm f.valence.natAbs g.valence.natAbs
    let t1 : Int := ((L / f.valence.natAbs : Nat) : Int)
    let t2 : Int := ((L / g.valence.natAbs : Nat) : Int)
    some ((f.mul t1).add (g.mul t2))

theorem Formula.add_valence (f g : Formula) : (f.add g).valence = f.valence + g.valence := rfl

theorem Formula.mul_valence (f : Formula) (t : Int) : (f.mul t).valence = f.valence * t := rfl

/-- Helper: a positive integer times the quotient of the lcm with its
absolute value gives back the lcm. -/
theorem pos_mul_lcm_div (a : Int) (n : Nat) (ha : 0 < a) (hd : a.natAbs ∣ n) :
    a * ((n / a.natAbs : Nat) : Int) = (n : Int) := by
  have h1 : a = (a.natAbs : Int) := (Int.natAbs_of_nonneg ha.le).symm
  rw [h1]
  rw [← Int.natCast_mul]
  congr 1
  exact Nat.mul_div_cancel' hd

/-- Helper: a negative integer times the quotient of the lcm with its
absolute value gives the negated lcm. -/
theorem neg_mul_lcm_div (a : Int) (n : Nat) (ha : a < 0) (hd : a.natAbs ∣ n) :
    a * ((n / a.natAbs : Nat) : Int) = -(n : Int) := by
  have h1 : a = -(a.natAbs : Int) := by
    have := Int.natAbs_of_nonneg (neg_nonneg.mpr ha.le)
    omega
  nth_rewrite 1 [h1]
  rw [neg_mul, ← Int.natCast_mul, Nat.mul_div_cancel' hd]

/-- Claim C4: `f1 & f2` (balance_combine) errors exactly when a valence is
zero or the valences share a sign; with nonzero opposite-sign valences it
returns a formula of valence 0 (self scaled by lcm/|v1| combined with other
scaled by lcm/|v2|). -/
theorem claim_C4 (f g : Formula) :
    (f.balance_combine g = none ↔
      f.valence = 0 ∨ g.valence = 0 ∨ 0 < f.valence * g.valence) ∧
    (f.valence ≠ 0 → g.valence ≠ 0 → f.valence * g.valence < 0 →
      ∃ h, f.balance_combine g = some h ∧ h.valence = 0) := by
  constructor
  · by_cases hc : 0 ≤ f.valence * g.valence
    · simp only [Formula.balance_combine, if_pos hc, true_iff]
      rcases hc.lt_or_eq with hlt | heq
      · exact Or.inr (Or.inr hlt)
      · rcases mul_eq_zero.mp heq.symm with h | h
        · exact Or.inl h
        · exact Or.inr (Or.inl h)
    · simp only [Formula.balance_combine, if_neg hc]
      constructor
      · intro h
        exact absurd h (by simp)
      · intro h
        exfalso
        push_neg at hc
        rcases h with h | h | h
        · rw [h, zero_mul] at hc
          exact lt_irrefl 0 hc
        · rw [h, mul_zero] at hc
          exact lt_irrefl 0 hc
        · exact absurd h (not_lt.mpr hc.le)
  · intro _ _ hop
    have hc : ¬ 0 ≤ f.valence * g.valence := not_le.mpr hop
    unfold Formula.balance_combine
    rw [if_neg hc]
    refine ⟨_, rfl, ?_⟩
    rw [Formula.add_valence, Formula.mul_valence, Formula.mul_valence]
    rcases mul_neg_iff.mp hop with ⟨ha, hb⟩ | ⟨ha, hb⟩
    · rw [pos_mul_lcm_div f.valence _ ha (Nat.dvd_lcm_left _ _),
        neg_mul_lcm_div g.valence _ hb (Nat.dvd_lcm_right _ _)]
      ring
    · rw [neg_mul_lcm_div f.valence _ ha (Nat.dvd_lcm_left _ _),
        pos_mul_lcm_div g.valence _ hb (Nat.dvd_lcm_right _ _)]
      ring

/-- Witness for claim C4 at valences 2 and -3 (lcm 6, scales 3 and 2). -/
theorem claim_C4_witness :
    ∃ h, Formula.balance_combine ⟨[], 2⟩ ⟨[], -3⟩ = some h ∧ h.valence = 0 :=
  (claim_C4 ⟨[], 2⟩ ⟨[], -3⟩).2 (by decide) (by decide) (by decide)

/-- Physical state of a substance (`substance.py` `State`); behaviourally
inert, carried for fidelity. -/
inductive PState where
  | gas
  | liquid
  | solid
  | aqua
deriving DecidableEq, Repr

/-- Substance (`substance.py`): a formula plus physical metadata.  The `id`
field models Python object identity (`eq=False`): substances sharing a
formula are still distinct keys.  The dataclass declares the energy field as
`energy` (J/mol) while every read site in `matter.py`/`reaction.py`
accesses it as `substance.chemical_energy`; we use the read-site name.
Defaults follow the dataclass (`specific_heat = 75`,
`heat_transfer_coefficient = 1`). -/
structure Substance where
  id : Nat
  formula : Formula
  density : ℚ
  state : PState := PState.liquid
  chemical_energy : ℚ := 0
  specific_heat : ℚ := 75
  heat_transfer_coefficient : ℚ := 1
  color : String := "transparent"
  name : Option String := none
deriving DecidableEq, Repr

/-- Derived charge of a substance (`Substance.__post_init__`). -/
def Substance.charge (s : Substance) : Int := s.formula.valence

/-- Derived relative mass of a substance (`Substance.__post_init__`). -/
def Substance.relative_mass (s : Substance) : ℚ := s.formula.relative_mass

/-- Matter (`matter.py`): a live quantity of one substance. -/
structure Matter where
  substance : Substance
  amount : ℚ
  temperature : ℚ := 20
  surface_area_multiplier : ℚ := 1
deriving DecidableEq, Repr

/-- Internal energy of a matter (`Matter.internal_energy`, J). -/
def Matter.internal_energy (m : Matter) : ℚ :=
  m.amount * m.temperature * m.substance.specific_heat

/-- Chemical energy of a matter (`Matter.chemical_energy`, J). -/
def Matter.chemical_energy (m : Matter) : ℚ :=
  m.amount * m.substance.chemical_energy

/-- Total energy of a matter (`Matter.energy`). -/
def Matter.energy (m : Matter) : ℚ := m.internal_energy + m.chemical_energy

/-- Mass of a matter in kg (`Matter.mass`). -/
def Matter.mass (m : Matter) : ℚ := m.amount * m.substance.relative_mass / 1000

/-- Volume of a matter (`Matter.volume`).  `none` embeds the
`ZeroDivisionError` the Python raises when the substance's density is
zero. -/
def Matter.volume (m : Matter) : Option ℚ :=
  if m.substance.density = 0 then none else some (m.mass / m.substance.density)

/-- Merging more of the same substance into a matter (`Matter.merge`).
`none` embeds the Python raises: `ValueError` on a substance mismatch, and
`ZeroDivisionError` when the temperatures differ and the combined
amount times specific heat is zero. -/
def Matter.merge (m o : Matter) : Option Matter :=
  if o.substance ≠ m.substance then none
  else
    let amount := m.amount + o.amount
    if m.temperature ≠ o.temperature then
      if amount * m.substance.specific_heat = 0 then none
      else some { m with
        temperature := (m.internal_energy + o.internal_energy) / (amount * m.substance.specific_heat),
        amount := amount }
    else some { m with amount := amount }

/-- Subtracting a quantity from a matter (`Matter.remove`): clamps to zero
when the result would be nonpositive, otherwise updates the
energy-weighted temperature.  `none` embeds the Python raises (substance
mismatch, zero denominator in the temperature update). -/
def Matter.remove (m o : Matter) : Option Matter :=
  if o.substance ≠ m.substance then none
  else
    let amount := m.amount - o.amount
    if amount ≤ 0 then some { m with amount := 0 }
    else if m.temperature ≠ o.temperature then
      if amount * m.substance.specific_heat = 0 then none
      else some { m with
        temperature := (m.internal_energy - o.internal_energy) / (amount * m.substance.specific_heat),
        amount := amount }
    else some { m with amount := amount }

/-- Injecting heat into a matter (`Matter.add_heat`): a temperature shift;
`none` embeds the `ZeroDivisionError` raised when the heat is nonzero and
amount times specific heat is zero. -/
def Matter.add_heat (m : Matter) (heat : ℚ) : Option Matter :=
  if heat = 0 then some m
  else if m.amount * m.substance.specific_heat = 0 then none
  else some { m with temperature := m.temperature + heat / (m.amount * m.substance.specific_heat) }

/-- Pairwise heat flow from one matter toward another over one tick
(`Matter.transfer_heat`).  The Python coefficient is
`(h1 * h2) ** 0.5`; the square root over `ℚ` is embedded with `Rat.sqrt`
(the theorems below rely only on its symmetry in the two coefficients).
`none` embeds the `ZeroDivisionError` propagated from either side's
volume computation.  `HEAT_TRANSFER_CONSTANT = 1e3`. -/
def Matter.transfer_heat (m : Matter) (tick : ℚ) (o : Matter) : Option ℚ :=
  match m.volume, o.volume with
  | some mv, some ov =>
    let delta_temperature := m.temperature - o.temperature
    let area := min (m.surface_area_multiplier * mv) (o.surface_area_multiplier * ov)
    let coefficient :=
      Rat.sqrt (m.substance.heat_transfer_coefficient * o.substance.heat_transfer_coefficient)
    some (coefficient * area * delta_temperature * tick * 1000)
  | _, _ => none

/-- Heat flow toward the environment (`Matter.transfer_heat_environment`);
`none` embeds the `ZeroDivisionError` from the volume computation. -/
def Matter.transfer_heat_environment (m : Matter) (tick : ℚ)
    (environment_temperature : ℚ) : Option ℚ :=
  match m.volume with
  | some mv =>
    let delta_temperature := m.temperature - environment_temperature
    let area := m.surface_area_multiplier * mv
    let coefficient := m.substance.heat_transfer_coefficient
    some (coefficient * area * delta_temperature * tick * 1000)
  | none => none

/-- The `ChemicalSystem.matters` mapping (a Python `dict` keyed by
substance identity): an association list in insertion order.  Theorems
assume key uniqueness (`keysNodup`) where the dict invariant matters. -/
abbrev Mmap := List (Substance × Matter)

/-- Key-uniqueness invariant of a Python dict. -/
def keysNodup (m : Mmap) : Prop := (m.map Prod.fst).Nodup

/-- Dict lookup (`matters[substance]`, first matching key). -/
def lookupS (m : Mmap) (s : Substance) : Option Matter :=
  match m with
  | [] => none
  | p :: rest => if p.1 = s then some p.2 else lookupS rest s

/-- Dict update of an existing key in place (in-place mutation of the
stored `Matter`), leaving the map unchanged when the key is absent. -/
def setS (m : Mmap) (s : Substance) (v : Matter) : Mmap :=
  match m with
  | [] => []
  | p :: rest => if p.1 = s then (s, v) :: rest else p :: setS rest s v

/-- Dict deletion (`matters.pop(substance)`, first matching key). -/
def eraseS (m : Mmap) (s : Substance) : Mmap :=
  match m with
  | [] => []
  | p :: rest => if p.1 = s then rest else p :: eraseS rest s

/-- Amount currently present for a substance (0 when absent; the callers
below only use it where the Python lookup is guaranteed to succeed). -/
def amountOf (matters : Mmap) (s : Substance) : ℚ :=
  match lookupS matters s with
  | some mt => mt.amount
  | none => 0

/-- First loop of the default rate function (`speed_multiplier_factory`):
walk the reactants; `none` embeds the early `return 0.0` on an absent
reactant or a temperature outside the window, otherwise multiply the
accumulator by each reactant's surface-area multiplier. -/
def speedLoop1 (matters : Mmap) (tmin tmax : ℚ) :
    List (Substance × ℚ) → ℚ → Option ℚ
  | [], acc => some acc
  | p :: rest, acc =>
    match lookupS matters p.1 with
    | none => none
    | some mt =>
      if mt.temperature < tmin ∨ tmax < mt.temperature then none
      else speedLoop1 matters tmin tmax rest (acc * mt.surface_area_multiplier)

/-- Second loop of the default rate function: fold `min acc (amount / coefficient)`
over the reactants. -/
def speedLoop2 (matters : Mmap) : List (Substance × ℚ) → ℚ → ℚ
  | [], acc => acc
  | p :: rest, acc => speedLoop2 matters rest (min acc (amountOf matters p.1 / p.2))

/-- A rate-function policy.  The Python signature is
`(tick, reaction, matters) -> multiplier`; since a Lean structure cannot
recursively contain functions over itself, the policy receives the
reaction's observable data (`left`, `right`) in place of the reaction
object. -/
abbrev SpeedFunc :=
  ℚ → List (Substance × ℚ) → List (Substance × ℚ) → Mmap → ℚ

/-- The default rate-function factory (`speed_multiplier_factory` in
`reaction.py`): 0 on an absent or out-of-window reactant, otherwise
`base * tick` times the reactant surface-area multipliers, folded with
`min` against each reactant's `amount / coefficient`. -/
def speed_multiplier_factory (base min_temperature max_temperature : ℚ) : SpeedFunc :=
  fun tick left _ matters =>
    match speedLoop1 matters min_temperature max_temperature left (base * tick) with
    | none => 0
    | some m0 => speedLoop2 matters left m0

/-- Module-level default rate function (`speed_multiplier_factory()`,
defaults `base=1.0`, `min_temperature=-200.0`, `max_temperature=1e6`). -/
def default_speed_multiplier : SpeedFunc := speed_multiplier_factory 1 (-200) 1000000

/-- Reaction (`reaction.py`): stoichiometric sides plus an injected rate
policy.  The Python `dict`s become association lists in insertion order. -/
structure Reaction where
  left : List (Substance × ℚ)
  right : List (Substance × ℚ)
  speed_multiplier : SpeedFunc := default_speed_multiplier

/-- Derived net chemical energy of a reaction (`Reaction.__post_init__`). -/
def Reaction.chemical_energy (r : Reaction) : ℚ :=
  (r.left.map (fun p => p.1.chemical_energy * p.2)).sum
    - (r.right.map (fun p => p.1.chemical_energy * p.2)).sum

/-- Clearing epsilon `AMOUNT_CLEAR = 1e-12` (`chemical_system.py`). -/
def AMOUNT_CLEAR : ℚ := 1 / 10 ^ 12

/-- Pending per-tick change set (`MatterChange`). -/
structure MatterChange where
  add_matter : List Matter := []
  remove_matter : List Matter := []
  add_heat : List (Substance × ℚ) := []
deriving DecidableEq, Repr

/-- Appending one change set onto another (`MatterChange.extend`). -/
def MatterChange.extend (c o : MatterChange) : MatterChange :=
  { add_matter := c.add_matter ++ o.add_matter,
    remove_matter := c.remove_matter ++ o.remove_matter,
    add_heat := c.add_heat ++ o.add_heat }

/-- The reactant loop of `ChemicalSystem.reaction_process`: builds the
remove entries (at each reactant's current temperature and surface-area
multiplier) and accumulates the removed energy, the temperature-weighted
amount, and the amount sum.  `none` embeds the `KeyError` on a reactant
absent from `matters`. -/
def leftScan (matters : Mmap) (multiplier : ℚ) :
    List (Substance × ℚ) → Option (List Matter × ℚ × ℚ × ℚ)
  | [] => some ([], 0, 0, 0)
  | p :: rest =>
    match lookupS matters p.1 with
    | none => none
    | some mt =>
      match leftScan matters multiplier rest with
      | none => none
      | some (removes, te, tn, asum) =>
        let amount := p.2 * multiplier
        let reactant : Matter :=
          { substance := p.1, amount := amount, temperature := mt.temperature,
            surface_area_multiplier := mt.surface_area_multiplier }
        some (reactant :: removes, reactant.energy + te,
          mt.temperature * amount + tn, amount + asum)

/-- The `matter_amount` loop of `ChemicalSystem.reaction_process`: sum of
the currently present amounts of the reactants. -/
def matterAmountSum (matters : Mmap) : List (Substance × ℚ) → Option ℚ
  | [] => some 0
  | p :: rest =>
    match lookupS matters p.1, matterAmountSum matters rest with
    | some mt, some acc => some (mt.amount + acc)
    | _, _ => none

/-- The heat-distribution loop of `ChemicalSystem.reaction_process`: each
reactant receives `total_energy * current_amount / matter_amount`. -/
def heatEntries (matters : Mmap) (total_energy matter_amount : ℚ) :
    List (Substance × ℚ) → Option (List (Substance × ℚ))
  | [] => some []
  | p :: rest =>
    match lookupS matters p.1, heatEntries matters total_energy matter_amount rest with
    | some mt, some hs => some ((p.1, total_energy * mt.amount / matter_amount) :: hs)
    | _, _ => none

/-- One reaction's change computation (`ChemicalSystem.reaction_process`).
Returns the empty change when the multiplier is exactly 0; otherwise
`none` embeds the `KeyError`/`ZeroDivisionError` raises (absent reactant,
zero `amount_sum`, zero `matter_amount`). -/
def reaction_process (matters : Mmap) (reaction : Reaction) (tick : ℚ) :
    Option MatterChange :=
  let multiplier := reaction.speed_multiplier tick reaction.left reaction.right matters
  if multiplier = 0 then some {}
  else
    match leftScan matters multiplier reaction.left with
    | none => none
    | some (removes, te1, temp_num, amount_sum) =>
      if amount_sum = 0 then none
      else
        let reaction_temperature := temp_num / amount_sum
        let adds : List Matter := reaction.right.map
          (fun p => (⟨p.1, p.2 * multiplier, reaction_temperature, 1⟩ : Matter))
        let total_energy := te1 - (adds.map Matter.energy).sum
        match matterAmountSum matters reaction.left with
        | none => none
        | some matter_amount =>
          if matter_amount = 0 then none
          else
            match heatEntries matters total_energy matter_amount reaction.left with
            | none => none
            | some heats =>
              some { add_matter := adds, remove_matter := removes, add_heat := heats }

/-- The add loop of `ChemicalSystem.apply_changes`: create the entry when
the substance is absent (dict insertion appends), else merge in place. -/
def applyAdds : Mmap → List Matter → Option Mmap
  | m, [] => some m
  | m, mt :: rest =>
    match lookupS m mt.substance with
    | none => applyAdds (m ++ [(mt.substance, mt)]) rest
    | some cur =>
      match cur.merge mt with
      | none => none
      | some merged => applyAdds (setS m mt.substance merged) rest

/-- The heat loop of `ChemicalSystem.apply_changes`; `none` embeds the
`KeyError` on an absent substance and the `add_heat` zero-denominator
raise. -/
def applyHeats : Mmap → List (Substance × ℚ) → Option Mmap
  | m, [] => some m
  | m, p :: rest =>
    match lookupS m p.1 with
    | none => none
    | some cur =>
      match cur.add_heat p.2 with
      | none => none
      | some nw => applyHeats (setS m p.1 nw) rest

/-- The remove loop of `ChemicalSystem.apply_changes`: subtract each
entry, then delete the substance when its amount fell to at most
`AMOUNT_CLEAR`. -/
def applyRemoves : Mmap → List Matter → Option Mmap
  | m, [] => some m
  | m, mt :: rest =>
    match lookupS m mt.substance with
    | none => none
    | some cur =>
      match cur.remove mt with
      | none => none
      | some nw =>
        let m1 := setS m mt.substance nw
        if nw.amount ≤ AMOUNT_CLEAR then applyRemoves (eraseS m1 mt.substance) rest
        else applyRemoves m1 rest

/-- Applying a pending change set (`ChemicalSystem.apply_changes`): adds,
then heats, then removes with depletion clearing. -/
def apply_changes (m : Mmap) (change : MatterChange) : Option Mmap :=
  match applyAdds m change.add_matter with
  | none => none
  | some m1 =>
    match applyHeats m1 change.add_heat with
    | none => none
    | some m2 => applyRemoves m2 change.remove_matter

/-- The pairwise part of one entry's accumulated flow (inner loop of
`ChemicalSystem.transfer_heat`): flows from `mt` toward every entry whose
key differs from `s`; `none` embeds a `ZeroDivisionError` raised by any
flow computation. -/
def pairHeats (tick : ℚ) (s : Substance) (mt : Matter) : Mmap → Option ℚ
  | [] => some 0
  | p :: rest =>
    if p.1 = s then pairHeats tick s mt rest
    else
      match mt.transfer_heat tick p.2, pairHeats tick s mt rest with
      | some f, some acc => some (f + acc)
      | _, _ => none

/-- Accumulated heat flow out of the entry keyed `s` holding `mt`:
pairwise flows plus the environment term when a temperature is supplied
(`None`, embedded as `none`, skips environmental exchange). -/
def heatFor (m : Mmap) (tick : ℚ) (s : Substance) (mt : Matter)
    (environment_temperature : Option ℚ) : Option ℚ :=
  match pairHeats tick s mt m with
  | none => none
  | some h =>
    match environment_temperature with
    | none => some h
    | some t =>
      match mt.transfer_heat_environment tick t with
      | none => none
      | some he => some (h + he)

/-- The application loop of `ChemicalSystem.transfer_heat`: every matter
receives `add_heat` of the negated accumulated flow; all flows are
computed from the pre-diffusion snapshot `m`.  (Python computes the whole
heat dict before the add_heat loop; interleaving them is observationally
equal over `Option`: any raise yields `none`, and on success the same map
results.) -/
def applyAllHeat (m : Mmap) (tick : ℚ) (environment_temperature : Option ℚ) :
    Mmap → Option Mmap
  | [] => some []
  | p :: rest =>
    match heatFor m tick p.1 p.2 environment_temperature with
    | none => none
    | some h =>
      match p.2.add_heat (-h), applyAllHeat m tick environment_temperature rest with
      | some nw, some out => some ((p.1, nw) :: out)
      | _, _ => none

/-- Heat diffusion over one tick (`ChemicalSystem.transfer_heat`). -/
def transfer_heat (m : Mmap) (tick : ℚ) (environment_temperature : Option ℚ) :
    Option Mmap :=
  applyAllHeat m tick environment_temperature m

/-- The reaction loop of `ChemicalSystem.run`: every reaction's change is
computed against the pre-tick state and the changes are concatenated. -/
def tickChange (m : Mmap) (tick : ℚ) : List Reaction → Option MatterChange
  | [] => some {}
  | r :: rest =>
    match reaction_process m r tick, tickChange m tick rest with
    | some c, some cs => some (c.extend cs)
    | _, _ => none

/-- One tick of the engine (`ChemicalSystem.run`): compute all reaction
changes, apply them, then diffuse heat. -/
def run (m : Mmap) (reactions : List Reaction) (tick : ℚ)
    (environment_temperature : Option ℚ) : Option Mmap :=
  match tickChange m tick reactions with
  | none => none
  | some change =>
    match apply_changes m change with
    | none => none
    | some m1 => transfer_heat m1 tick environment_temperature

/-- Lookup in an element-count association list. -/
def lookupE (l : List (Element × Int)) (e : Element) : Option Int :=
  match l with
  | [] => none
  | p :: rest => if p.1 = e then some p.2 else lookupE rest e

/-- An element's atom count in a substance's formula
(`substance.formula.element_count.get(element, 0)`). -/
def countOf (s : Substance) (e : Element) : Int :=
  (lookupE s.formula.element_count e).getD 0

/-- The union of the elements of all participants (`all_elements` in
`Reaction.BalanceReaction`).  Python iterates a hash set whose order is
arbitrary; the embedding fixes one duplicate-free enumeration (the row
order does not affect the solution of the linear system). -/
def allElements (subs : List Substance) : List Element :=
  ((subs.map (fun s => s.formula.element_count.map Prod.fst)).flatten).dedup

/-- Assembly of the balancer's linear system (`mat_a`, `vec_b`): one row
per element over the unknowns `x_1..x_{n-1}` with participant 0's
contribution negated on the right-hand side, plus a final charge row over
participants 1.. (with right-hand side 0) exactly when some of those
charges is nonzero. -/
def buildSystem (subs : List Substance) : List (List ℚ) × List ℚ :=
  match subs with
  | [] => ([], [])
  | s0 :: rest =>
    let els := allElements (s0 :: rest)
    let matA := els.map (fun e => rest.map (fun s => ((countOf s e : Int) : ℚ)))
    let vecB := els.map (fun e => ((-countOf s0 e : Int) : ℚ))
    let lastline := rest.map (fun s => ((s.charge : Int) : ℚ))
    if lastline.any (fun x => x ≠ 0) then (matA ++ [lastline], vecB ++ [0])
    else (matA, vecB)

/-- Claim C5 (evidence of the code bug): the temperature-average
denominators are unguarded.  Merging two zero-amount matters of one
substance with differing temperatures raises `ZeroDivisionError`
(embedded `none`); so does `add_heat` with nonzero heat on a zero-amount
matter, and a firing reaction whose summed consumed reactant amount is
zero; only `remove` is guarded by its clamp.  The claim (and spec section
4.3) requires all four to be defined. -/
theorem claim_C5_unguarded :
    (Matter.merge ⟨⟨0, ⟨[], 0⟩, 1, PState.liquid, 0, 75, 1, "transparent", none⟩, 0, 20, 1⟩
        ⟨⟨0, ⟨[], 0⟩, 1, PState.liquid, 0, 75, 1, "transparent", none⟩, 0, 10, 1⟩ = none) ∧
    (Matter.add_heat ⟨⟨0, ⟨[], 0⟩, 1, PState.liquid, 0, 75, 1, "transparent", none⟩, 0, 20, 1⟩ 5 = none) ∧
    (reaction_process
        [(⟨0, ⟨[], 0⟩, 1, PState.liquid, 0, 75, 1, "transparent", none⟩,
          ⟨⟨0, ⟨[], 0⟩, 1, PState.liquid, 0, 75, 1, "transparent", none⟩, 1, 20, 1⟩)]
        { left := [(⟨0, ⟨[], 0⟩, 1, PState.liquid, 0, 75, 1, "transparent", none⟩, 0)],
          right := [], speed_multiplier := fun _ _ _ _ => 1 } 1 = none) ∧
    (Matter.remove ⟨⟨0, ⟨[], 0⟩, 1, PState.liquid, 0, 75, 1, "transparent", none⟩, 5, 20, 1⟩
        ⟨⟨0, ⟨[], 0⟩, 1, PState.liquid, 0, 75, 1, "transparent", none⟩, 7, 30, 1⟩ =
      some ⟨⟨0, ⟨[], 0⟩, 1, PState.liquid, 0, 75, 1, "transparent", none⟩, 0, 20, 1⟩) := by
  refine ⟨?_, ?_, ?_, ?_⟩
  · norm_num [Matter.merge]
  · norm_num [Matter.add_heat]
  · norm_num [reaction_process, leftScan, lookupS]
  · norm_num [Matter.remove]

/-! ### Claim C3 -/

/-- Surface-area multiplier currently recorded for a substance (1 when
absent; only used under a presence hypothesis). -/
def samOf (matters : Mmap) (s : Substance) : ℚ :=
  match lookupS matters s with
  | some mt => mt.surface_area_multiplier
  | none => 1

theorem speedLoop1_none (matters : Mmap) (tmin tmax : ℚ) (l : List (Substance × ℚ))
    (acc : ℚ) (p : Substance × ℚ) (hp : p ∈ l)
    (hbad : lookupS matters p.1 = none ∨
      (∃ mt, lookupS matters p.1 = some mt ∧ (mt.temperature < tmin ∨ tmax < mt.temperature))) :
    speedLoop1 matters tmin tmax l acc = none := by
  induction l generalizing acc with
  | nil => cases hp
  | cons q rest ih =>
    rcases List.mem_cons.mp hp with rfl | hmem
    · rcases hbad with hnone | ⟨mt, hmt, hout⟩
      · simp [speedLoop1, hnone]
      · simp [speedLoop1, hmt, if_pos hout]
    · unfold speedLoop1
      cases hq : lookupS matters q.1 with
      | none => rfl
      | some mt =>
        by_cases hout : mt.temperature < tmin ∨ tmax < mt.temperature
        · simp [if_pos hout]
        · simp only [if_neg hout]
          exact ih _ hmem

theorem speedLoop1_some (matters : Mmap) (tmin tmax : ℚ) (l : List (Substance × ℚ))
    (acc : ℚ)
    (hok : ∀ p ∈ l, ∃ mt, lookupS matters p.1 = some mt ∧
      tmin ≤ mt.temperature ∧ mt.temperature ≤ tmax) :
    speedLoop1 matters tmin tmax l acc =
      some (acc * (l.map (fun p => samOf matters p.1)).prod) := by
  induction l generalizing acc with
  | nil => simp [speedLoop1]
  | cons q rest ih =>
    obtain ⟨mt, hmt, h1, h2⟩ := hok q (List.mem_cons_self q rest)
    have hout : ¬ (mt.temperature < tmin ∨ tmax < mt.temperature) := by
      push_neg
      exact ⟨h1, h2⟩
    unfold speedLoop1
    rw [hmt]
    simp only [if_neg hout]
    rw [ih _ (fun p hp => hok p (List.mem_cons_of_mem q hp))]
    simp only [List.map_cons, List.prod_cons, samOf, hmt]
    ring_nf

theorem speedLoop2_eq_foldl (matters : Mmap) (l : List (Substance × ℚ)) (acc : ℚ) :
    speedLoop2 matters l acc =
      l.foldl (fun a p => min a (amountOf matters p.1 / p.2)) acc := by
  induction l generalizing acc with
  | nil => rfl
  | cons q rest ih => simpa [speedLoop2] using ih (min acc (amountOf matters q.1 / q.2))

theorem foldl_min_le_init (f : Substance × ℚ → ℚ) (l : List (Substance × ℚ)) (acc : ℚ) :
    l.foldl (fun a p => min a (f p)) acc ≤ acc := by
  induction l generalizing acc with
  | nil => exact le_refl acc
  | cons q rest ih => exact le_trans (ih (min acc (f q))) (min_le_left _ _)

theorem foldl_min_le_mem (f : Substance × ℚ → ℚ) (l : List (Substance × ℚ)) (acc : ℚ)
    (p : Substance × ℚ) (hp : p ∈ l) :
    l.foldl (fun a q => min a (f q)) acc ≤ f p := by
  induction l generalizing acc with
  | nil => cases hp
  | cons q rest ih =>
    rcases List.mem_cons.mp hp with rfl | hmem
    · exact le_trans (foldl_min_le_init f rest _) (min_le_right _ _)
    · exact ih _ hmem

/-- Claim C3 (counterexample): with one reactant of amount 10, coefficient
1, surface_area_multiplier 2, temperature 20 in window, base 1 and tick 1,
the code returns 2 (the surface-area multiplier scales the rate), while
the claim's "base times tick_length, rate-limited by min(amount/coeff)"
predicts min(1, 10) = 1. -/
theorem claim_C3_counterexample :
    speed_multiplier_factory 1 (-200) 1000000 1
      [(⟨0, ⟨[], 0⟩, 1, PState.liquid, 0, 75, 1, "transparent", none⟩, 1)] []
      [(⟨0, ⟨[], 0⟩, 1, PState.liquid, 0, 75, 1, "transparent", none⟩,
        ⟨⟨0, ⟨[], 0⟩, 1, PState.liquid, 0, 75, 1, "transparent", none⟩, 10, 20, 2⟩)] = 2 ∧
    (2 : ℚ) ≠ min (1 * 1) (10 / 1) := by
  constructor
  · norm_num [speed_multiplier_factory, speedLoop1, speedLoop2, amountOf, lookupS]
  · norm_num

/-- Claim C3 (amended): the default rate function returns 0 when any
reactant is absent or outside the temperature window; when every reactant
is present and inside the window it returns `base * tick` times the
product of the reactants' surface-area multipliers, folded with `min`
against each reactant's `amount / coefficient` — hence the result never
exceeds any reactant's amount divided by its coefficient. -/
theorem claim_C3_amended (base tmin tmax tick : ℚ)
    (left right : List (Substance × ℚ)) (matters : Mmap) :
    ((∃ p ∈ left, lookupS matters p.1 = none ∨
        (∃ mt, lookupS matters p.1 = some mt ∧
          (mt.temperature < tmin ∨ tmax < mt.temperature))) →
      speed_multiplier_factory base tmin tmax tick left right matters = 0) ∧
    ((∀ p ∈ left, ∃ mt, lookupS matters p.1 = some mt ∧
        tmin ≤ mt.temperature ∧ mt.temperature ≤ tmax) →
      speed_multiplier_factory base tmin tmax tick left right matters =
        left.foldl (fun a p => min a (amountOf matters p.1 / p.2))
          (base * tick * (left.map (fun p => samOf matters p.1)).prod)) ∧
    ((∀ p ∈ left, ∃ mt, lookupS matters p.1 = some mt ∧
        tmin ≤ mt.temperature ∧ mt.temperature ≤ tmax) →
      ∀ p ∈ left,
        speed_multiplier_factory base tmin tmax tick left right matters ≤
          amountOf matters p.1 / p.2) := by
  have hmain : (∀ p ∈ left, ∃ mt, lookupS matters p.1 = some mt ∧
      tmin ≤ mt.temperature ∧ mt.temperature ≤ tmax) →
      speed_multiplier_factory base tmin tmax tick left right matters =
        left.foldl (fun a p => min a (amountOf matters p.1 / p.2))
          (base * tick * (left.map (fun p => samOf matters p.1)).prod) := by
    intro hok
    unfold speed_multiplier_factory
    rw [speedLoop1_some matters tmin tmax left (base * tick) hok]
    exact speedLoop2_eq_foldl matters left _
  refine ⟨?_, hmain, ?_⟩
  · rintro ⟨p, hp, hbad⟩
    unfold speed_multiplier_factory
    rw [speedLoop1_none matters tmin tmax left (base * tick) p hp hbad]
  · intro hok p hp
    rw [hmain hok]
    exact foldl_min_le_mem _ left _ p hp

/-- Witness for claim C3 at a concrete one-reactant system (amount 10,
coefficient 2, surface-area multiplier 3, base 1, tick 1): the value is
min(1 * 3, 5) = 3 and is bounded by 10 / 2. -/
theorem claim_C3_witness :
    speed_multiplier_factory 1 (-200) 1000000 1
      [(⟨0, ⟨[], 0⟩, 1, PState.liquid, 0, 75, 1, "transparent", none⟩, 2)] []
      [(⟨0, ⟨[], 0⟩, 1, PState.liquid, 0, 75, 1, "transparent", none⟩,
        ⟨⟨0, ⟨[], 0⟩, 1, PState.liquid, 0, 75, 1, "transparent", none⟩, 10, 20, 3⟩)] =
      [(⟨0, ⟨[], 0⟩, 1, PState.liquid, 0, 75, 1, "transparent", none⟩, (2 : ℚ))].foldl
        (fun a p => min a (amountOf
          [(⟨0, ⟨[], 0⟩, 1, PState.liquid, 0, 75, 1, "transparent", none⟩,
            ⟨⟨0, ⟨[], 0⟩, 1, PState.liquid, 0, 75, 1, "transparent", none⟩, 10, 20, 3⟩)] p.1 / p.2))
        (1 * 1 * ([(⟨0, ⟨[], 0⟩, 1, PState.liquid, 0, 75, 1, "transparent", none⟩, (2 : ℚ))].map
          (fun p => samOf
            [(⟨0, ⟨[], 0⟩, 1, PState.liquid, 0, 75, 1, "transparent", none⟩,
              ⟨⟨0, ⟨[], 0⟩, 1, PState.liquid, 0, 75, 1, "transparent", none⟩, 10, 20, 3⟩)] p.1)).prod) :=
  (claim_C3_amended 1 (-200) 1000000 1 _ [] _).2.1 (by
    intro p hp
    rcases List.mem_singleton.mp hp with rfl
    exact ⟨⟨⟨0, ⟨[], 0⟩, 1, PState.liquid, 0, 75, 1, "transparent", none⟩, 10, 20, 3⟩,
      by norm_num [lookupS], by norm_num, by norm_num⟩)

/-! ### Claim C6 -/

/-- Element used by the claim C6 counterexample. -/
def c6el : Element := ⟨0, 10⟩

/-- First participant of the claim C6 counterexample (charge +1). -/
def c6a : Substance := { id := 0, formula := ⟨[(c6el, 1)], 1⟩, density := 1 }

/-- Second participant of the claim C6 counterexample (charge -1). -/
def c6b : Substance := { id := 1, formula := ⟨[(c6el, 1)], -1⟩, density := 1 }

/-- Claim C6 (counterexample): with two participants of charges +1 and -1,
every participant is charged, so the claim predicts no charge row; the
code nevertheless appends one, and its right-hand side is 0, not
`-charge(participant 0) = -1` as the claim's equation
`sum of x_i * charge(i) = 0 including participant 0` would require. -/
theorem claim_C6_counterexample :
    buildSystem [c6a, c6b] = ([[1], [-1]], [-1, 0]) ∧
    ¬ ((∃ s ∈ [c6a, c6b], s.charge ≠ 0) ∧ ¬ ∀ s ∈ [c6a, c6b], s.charge ≠ 0) ∧
    (0 : ℚ) ≠ ((-c6a.charge : Int) : ℚ) := by
  refine ⟨?_, ?_, ?_⟩
  · norm_num [buildSystem, allElements, countOf, lookupE, Substance.charge, c6a, c6b, c6el]
  · decide
  · norm_num [Substance.charge, c6a]

/-- Claim C6 (amended): the charge-conservation row is appended exactly
when some participant other than participant 0 carries nonzero charge
(participant 0's charge is not consulted); the appended row has the
charges of participants 1.. as coefficients and right-hand side 0
(participant 0's charge does not appear in the equation). -/
theorem claim_C6_amended (s0 : Substance) (rest : List Substance) :
    ((∃ s ∈ rest, s.charge ≠ 0) →
      buildSystem (s0 :: rest) =
        ((allElements (s0 :: rest)).map
            (fun e => rest.map (fun s => ((countOf s e : Int) : ℚ)))
            ++ [rest.map (fun s => ((s.charge : Int) : ℚ))],
          (allElements (s0 :: rest)).map (fun e => ((-countOf s0 e : Int) : ℚ)) ++ [0])) ∧
    (¬ (∃ s ∈ rest, s.charge ≠ 0) →
      buildSystem (s0 :: rest) =
        ((allElements (s0 :: rest)).map
            (fun e => rest.map (fun s => ((countOf s e : Int) : ℚ))),
          (allElements (s0 :: rest)).map (fun e => ((-countOf s0 e : Int) : ℚ)))) := by
  have hcond : ((rest.map (fun s => ((s.charge : Int) : ℚ))).any (fun x => decide (x ≠ 0)) = true)
      ↔ ∃ s ∈ rest, s.charge ≠ 0 := by
    simp [List.any_map, Function.comp]
  constructor
  · intro hex
    simp only [buildSystem]
    rw [if_pos (hcond.mpr hex)]
  · intro hnex
    simp only [buildSystem]
    rw [if_neg (fun h => hnex (hcond.mp h))]

/-- Witness for claim C6 at one charged non-first participant (charges 0
and +1): the row is appended with the charge coefficients and rhs 0. -/
theorem claim_C6_witness :
    buildSystem [⟨0, ⟨[(c6el, 1)], 0⟩, 1, PState.liquid, 0, 75, 1, "transparent", none⟩, c6a] =
      ((allElements [⟨0, ⟨[(c6el, 1)], 0⟩, 1, PState.liquid, 0, 75, 1, "transparent", none⟩, c6a]).map
          (fun e => [c6a].map (fun s => ((countOf s e : Int) : ℚ)))
          ++ [[c6a].map (fun s => ((s.charge : Int) : ℚ))],
        (allElements [⟨0, ⟨[(c6el, 1)], 0⟩, 1, PState.liquid, 0, 75, 1, "transparent", none⟩, c6a]).map
          (fun e => ((-countOf ⟨0, ⟨[(c6el, 1)], 0⟩, 1, PState.liquid, 0, 75, 1, "transparent", none⟩ e : Int) : ℚ)) ++ [0]) :=
  (claim_C6_amended _ [c6a]).1 ⟨c6a, by decide, by decide⟩

/-! ### Claim C2 -/

theorem lookupS_none_iff (m : Mmap) (s : Substance) :
    lookupS m s = none ↔ s ∉ m.map Prod.fst := by
  induction m with
  | nil => simp [lookupS]
  | cons p rest ih =>
    by_cases hp : p.1 = s
    · simp [lookupS, hp]
    · simp only [lookupS, if_neg hp, List.map_cons, List.mem_cons, ih]
      constructor
      · intro hn
        rintro (h | h)
        · exact hp h.symm
        · exact hn h
      · intro hn h
        exact hn (Or.inr h)

theorem keys_setS (m : Mmap) (s : Substance) (v : Matter) :
    (setS m s v).map Prod.fst = m.map Prod.fst := by
  induction m with
  | nil => rfl
  | cons p rest ih =>
    by_cases hp : p.1 = s
    · simp [setS, hp]
    · simp [setS, hp, ih]

theorem lookup_setS_self (m : Mmap) (s : Substance) (v : Matter) (cur : Matter)
    (h : lookupS m s = some cur) : lookupS (setS m s v) s = some v := by
  induction m with
  | nil => cases h
  | cons p rest ih =>
    by_cases hp : p.1 = s
    · simp [setS, hp, lookupS]
    · rw [lookupS, if_neg hp] at h
      simp [setS, hp, lookupS, ih h]

theorem lookup_setS_other (m : Mmap) (t : Substance) (v : Matter) (s : Substance)
    (h : t ≠ s) : lookupS (setS m t v) s = lookupS m s := by
  induction m with
  | nil => rfl
  | cons p rest ih =>
    by_cases hp : p.1 = t
    · rw [setS, if_pos hp, lookupS, if_neg h, lookupS, if_neg (hp ▸ h)]
    · rw [setS, if_neg hp, lookupS, lookupS]
      by_cases hps : p.1 = s
      · simp [hps]
      · simp [hps, ih]

theorem eraseS_sublist (m : Mmap) (s : Substance) : (eraseS m s).Sublist m := by
  induction m with
  | nil => simp [eraseS]
  | cons p rest ih =>
    by_cases hp : p.1 = s
    · rw [eraseS, if_pos hp]
      exact (List.sublist_cons_self p rest)
    · rw [eraseS, if_neg hp]
      exact List.Sublist.cons₂ p ih

theorem keysNodup_eraseS (m : Mmap) (s : Substance) (hnd : keysNodup m) :
    keysNodup (eraseS m s) :=
  List.Nodup.sublist (List.Sublist.map Prod.fst (eraseS_sublist m s)) hnd

theorem keysNodup_setS (m : Mmap) (s : Substance) (v : Matter) (hnd : keysNodup m) :
    keysNodup (setS m s v) := by
  unfold keysNodup
  rw [keys_setS]
  exact hnd

theorem lookup_eraseS_self (m : Mmap) (s : Substance) (hnd : keysNodup m) :
    lookupS (eraseS m s) s = none := by
  induction m with
  | nil => rfl
  | cons p rest ih =>
    have hnr : keysNodup rest := (List.nodup_cons.mp hnd).2
    by_cases hp : p.1 = s
    · rw [eraseS, if_pos hp]
      rw [lookupS_none_iff]
      intro hmem
      exact (List.nodup_cons.mp hnd).1 (hp ▸ hmem)
    · rw [eraseS, if_neg hp, lookupS, if_neg hp]
      exact ih hnr

theorem lookup_eraseS_other (m : Mmap) (t s : Substance) (h : t ≠ s) :
    lookupS (eraseS m t) s = lookupS m s := by
  induction m with
  | nil => rfl
  | cons p rest ih =>
    by_cases hp : p.1 = t
    · rw [eraseS, if_pos hp, lookupS, if_neg (hp ▸ h)]
    · rw [eraseS, if_neg hp, lookupS, lookupS]
      by_cases hps : p.1 = s
      · simp [hps]
      · simp [hps, ih]

theorem applyHeats_keys (l : List (Substance × ℚ)) (m m' : Mmap)
    (h : applyHeats m l = some m') : m'.map Prod.fst = m.map Prod.fst := by
  induction l generalizing m with
  | nil =>
    simp only [applyHeats, Option.some.injEq] at h
    rw [← h]
  | cons p rest ih =>
    rw [applyHeats] at h
    cases hlu : lookupS m p.1 with
    | none => rw [hlu] at h; cases h
    | some cur =>
      rw [hlu] at h
      dsimp only at h
      cases hah : cur.add_heat p.2 with
      | none => rw [hah] at h; cases h
      | some nw =>
        rw [hah] at h
        exact (ih _ h).trans (keys_setS m p.1 nw)

theorem applyAdds_nodup (l : List Matter) (m m' : Mmap) (hnd : keysNodup m)
    (h : applyAdds m l = some m') : keysNodup m' := by
  induction l generalizing m with
  | nil =>
    simp only [applyAdds, Option.some.injEq] at h
    rw [← h]
    exact hnd
  | cons mt rest ih =>
    rw [applyAdds] at h
    cases hlu : lookupS m mt.substance with
    | none =>
      rw [hlu] at h
      refine ih _ ?_ h
      unfold keysNodup
      rw [List.map_append]
      apply List.Nodup.append hnd (by simp)
      intro a ha hb
      simp only [List.map_cons, List.map_nil, List.mem_singleton] at hb
      subst hb
      exact (lookupS_none_iff m mt.substance).mp hlu ha
    | some cur =>
      rw [hlu] at h
      dsimp only at h
      cases hmg : cur.merge mt with
      | none => rw [hmg] at h; cases h
      | some merged =>
        rw [hmg] at h
        exact ih _ (keysNodup_setS m mt.substance merged hnd) h

/-! ### Claim C8 -/

theorem applyRemoves_untouched (l : List Matter) (m m' : Mmap) (s : Substance)
    (hs : s ∉ l.map Matter.substance) (h : applyRemoves m l = some m') :
    lookupS m' s = lookupS m s := by
  induction l generalizing m with
  | nil =>
    simp only [applyRemoves, Option.some.injEq] at h
    rw [← h]
  | cons mt rest ih =>
    have hne : mt.substance ≠ s := by
      intro he
      exact hs (by simp [← he])
    have hrest : s ∉ rest.map Matter.substance := fun hr => hs (by simp [hr])
    rw [applyRemoves] at h
    cases hlu : lookupS m mt.substance with
    | none => rw [hlu] at h; cases h
    | some cur =>
      rw [hlu] at h
      dsimp only at h
      cases hrm : cur.remove mt with
      | none => rw [hrm] at h; cases h
      | some nw =>
        rw [hrm] at h
        dsimp only at h
        by_cases hcl : nw.amount ≤ AMOUNT_CLEAR
        · rw [if_pos hcl] at h
          rw [ih _ hrest h, lookup_eraseS_other _ _ _ hne, lookup_setS_other _ _ _ _ hne]
        · rw [if_neg hcl] at h
          rw [ih _ hrest h, lookup_setS_other _ _ _ _ hne]

theorem applyRemoves_none (l : List Matter) (m m' : Mmap) (s : Substance)
    (h0 : lookupS m s = none) (h : applyRemoves m l = some m') :
    lookupS m' s = none := by
  induction l generalizing m with
  | nil =>
    simp only [applyRemoves, Option.some.injEq] at h
    rw [← h]
    exact h0
  | cons mt rest ih =>
    rw [applyRemoves] at h
    by_cases hne : mt.substance = s
    · rw [hne, h0] at h
      cases h
    · cases hlu : lookupS m mt.substance with
      | none => rw [hlu] at h; cases h
      | some cur =>
        rw [hlu] at h
        dsimp only at h
        cases hrm : cur.remove mt with
        | none => rw [hrm] at h; cases h
        | some nw =>
          rw [hrm] at h
          dsimp only at h
          by_cases hcl : nw.amount ≤ AMOUNT_CLEAR
          · rw [if_pos hcl] at h
            refine ih _ ?_ h
            rw [lookup_eraseS_other _ _ _ hne, lookup_setS_other _ _ _ _ hne]
            exact h0
          · rw [if_neg hcl] at h
            refine ih _ ?_ h
            rw [lookup_setS_other _ _ _ _ hne]
            exact h0

theorem applyRemoves_clear (l : List Matter) (m m' : Mmap) (hnd : keysNodup m)
    (h : applyRemoves m l = some m') :
    ∀ mt ∈ l, lookupS m' mt.substance = none ∨
      ∃ cur, lookupS m' mt.substance = some cur ∧ AMOUNT_CLEAR < cur.amount := by
  induction l generalizing m with
  | nil => intro mt hmt; cases hmt
  | cons mt0 rest ih =>
    intro mt hmt
    rw [applyRemoves] at h
    cases hlu : lookupS m mt0.substance with
    | none => rw [hlu] at h; cases h
    | some cur =>
      rw [hlu] at h
      dsimp only at h
      cases hrm : cur.remove mt0 with
      | none => rw [hrm] at h; cases h
      | some nw =>
        rw [hrm] at h
        dsimp only at h
        by_cases hcl : nw.amount ≤ AMOUNT_CLEAR
        · rw [if_pos hcl] at h
          have hnd1 : keysNodup (eraseS (setS m mt0.substance nw) mt0.substance) :=
            keysNodup_eraseS _ _ (keysNodup_setS _ _ _ hnd)
          rcases List.mem_cons.mp hmt with rfl | hmem
          · by_cases hin : mt.substance ∈ rest.map Matter.substance
            · obtain ⟨mt1, hmt1, hsub⟩ := List.mem_map.mp hin
              have := ih _ hnd1 h mt1 hmt1
              rw [hsub] at this
              exact this
            · left
              rw [applyRemoves_untouched rest _ m' mt.substance hin h]
              rw [lookup_eraseS_self _ _ (keysNodup_setS _ _ _ hnd)]
          · exact ih _ hnd1 h mt hmem
        · rw [if_neg hcl] at h
          have hnd1 : keysNodup (setS m mt0.substance nw) := keysNodup_setS _ _ _ hnd
          rcases List.mem_cons.mp hmt with rfl | hmem
          · by_cases hin : mt.substance ∈ rest.map Matter.substance
            · obtain ⟨mt1, hmt1, hsub⟩ := List.mem_map.mp hin
              have := ih _ hnd1 h mt1 hmt1
              rw [hsub] at this
              exact this
            · right
              refine ⟨nw, ?_, lt_of_not_le hcl⟩
              rw [applyRemoves_untouched rest _ m' mt.substance hin h]
              exact lookup_setS_self m mt.substance nw cur hlu
          · exact ih _ hnd1 h mt hmem

/-- Claim C8: after `apply_changes`, every substance named by a remove
entry is either gone from `matters` or retains an amount strictly above
the clearing epsilon `AMOUNT_CLEAR = 1e-12`; in particular a removal that
leaves a substance at or below the epsilon makes it absent. -/
theorem claim_C8 (m : Mmap) (change : MatterChange) (m' : Mmap)
    (hnd : keysNodup m) (h : apply_changes m change = some m') :
    ∀ mt ∈ change.remove_matter,
      lookupS m' mt.substance = none ∨
      ∃ cur, lookupS m' mt.substance = some cur ∧ AMOUNT_CLEAR < cur.amount := by
  rw [apply_changes] at h
  cases ha : applyAdds m change.add_matter with
  | none => rw [ha] at h; cases h
  | some m1 =>
    rw [ha] at h
    dsimp only at h
    cases hh : applyHeats m1 change.add_heat with
    | none => rw [hh] at h; cases h
    | some m2 =>
      rw [hh] at h
      dsimp only at h
      have hnd1 : keysNodup m1 := applyAdds_nodup _ m m1 hnd ha
      have hnd2 : keysNodup m2 := by
        unfold keysNodup
        rw [applyHeats_keys change.add_heat m1 m2 hh]
        exact hnd1
      exact applyRemoves_clear change.remove_matter m2 m' hnd2 h

/-- Witness for claim C8: removing the full amount 1 from a single-entry
system clamps it to 0, which is at most the epsilon, so the substance is
deleted and absent afterwards. -/
theorem claim_C8_witness :
    lookupS [] (⟨0, ⟨[], 0⟩, 1, PState.liquid, 0, 75, 1, "transparent", none⟩ : Substance) = none ∨
    ∃ cur, lookupS []
        (⟨0, ⟨[], 0⟩, 1, PState.liquid, 0, 75, 1, "transparent", none⟩ : Substance) = some cur ∧
      AMOUNT_CLEAR < cur.amount :=
  claim_C8
    [(⟨0, ⟨[], 0⟩, 1, PState.liquid, 0, 75, 1, "transparent", none⟩,
      ⟨⟨0, ⟨[], 0⟩, 1, PState.liquid, 0, 75, 1, "transparent", none⟩, 1, 20, 1⟩)]
    { remove_matter := [⟨⟨0, ⟨[], 0⟩, 1, PState.liquid, 0, 75, 1, "transparent", none⟩, 1, 20, 1⟩] }
    [] (by simp [keysNodup])
    (by norm_num [apply_changes, applyAdds, applyHeats, applyRemoves, lookupS,
      Matter.remove, setS, eraseS, AMOUNT_CLEAR])
    ⟨⟨0, ⟨[], 0⟩, 1, PState.liquid, 0, 75, 1, "transparent", none⟩, 1, 20, 1⟩
    (List.mem_singleton.mpr rfl)

/-! ### Claim C10 -/

/-- Total internal energy of a system: sum over all matters of
amount times temperature times specific heat. -/
def totalInternalEnergy (m : Mmap) : ℚ :=
  (m.map (fun p => p.2.internal_energy)).sum

theorem sum_map_addQ {α : Type} (l : List α) (f g : α → ℚ) :
    (l.map (fun a => f a + g a)).sum = (l.map f).sum + (l.map g).sum := by
  induction l with
  | nil => simp
  | cons x rest ih => simp [ih]; ring

theorem sum_map_negQ {α : Type} (l : List α) (f : α → ℚ) :
    (l.map (fun a => -f a)).sum = -(l.map f).sum := by
  induction l with
  | nil => simp
  | cons x rest ih => simp [ih]; ring

theorem double_sum_antisym {α : Type} (l : List α) (F : α → α → ℚ)
    (hA : ∀ a b, F a b = -F b a) :
    (l.map (fun a => (l.map (fun b => F a b)).sum)).sum = 0 := by
  induction l with
  | nil => simp
  | cons x rest ih =>
    have hxx : F x x = 0 := by
      have := hA x x
      linarith
    simp only [List.map_cons, List.sum_cons, hxx]
    rw [sum_map_addQ rest (fun a => F a x) (fun a => (rest.map (fun b => F a b)).sum)]
    have hneg : (rest.map (fun a => F a x)).sum = -(rest.map (fun b => F x b)).sum := by
      rw [← sum_map_negQ]
      congr 1
      exact List.map_congr_left (fun a _ => hA a x)
    rw [hneg, ih]
    ring

/-- The value of a defined pairwise flow (both densities nonzero), written
out with total field division for use in the conservation argument. -/
def flowVal (tick : ℚ) (a b : Matter) : ℚ :=
  Rat.sqrt (a.substance.heat_transfer_coefficient * b.substance.heat_transfer_coefficient)
    * min (a.surface_area_multiplier * (a.mass / a.substance.density))
        (b.surface_area_multiplier * (b.mass / b.substance.density))
    * (a.temperature - b.temperature) * tick * 1000

/-- With both densities nonzero the pairwise flow is defined and equals
`flowVal`. -/
theorem transfer_heat_some (tick : ℚ) (a b : Matter)
    (hda : a.substance.density ≠ 0) (hdb : b.substance.density ≠ 0) :
    a.transfer_heat tick b = some (flowVal tick a b) := by
  unfold Matter.transfer_heat Matter.volume
  rw [if_neg hda, if_neg hdb]
  rfl

/-- The defined pairwise flow is antisymmetric: the geometric-mean
coefficient and the min overlap area are symmetric in the two matters
while the temperature difference changes sign. -/
theorem flowVal_antisym (tick : ℚ) (a b : Matter) :
    flowVal tick a b = -flowVal tick b a := by
  unfold flowVal
  rw [mul_comm b.substance.heat_transfer_coefficient a.substance.heat_transfer_coefficient,
    min_comm (b.surface_area_multiplier * (b.mass / b.substance.density))
      (a.surface_area_multiplier * (a.mass / a.substance.density))]
  ring

/-- With every density nonzero the pairwise loop succeeds and sums the
defined flows (skipping the own key). -/
theorem pairHeats_some (tick : ℚ) (s : Substance) (mt : Matter) (l : Mmap)
    (hdm : mt.substance.density ≠ 0)
    (hdl : ∀ p ∈ l, p.2.substance.density ≠ 0) :
    pairHeats tick s mt l =
      some ((l.map (fun q => if q.1 = s then 0 else flowVal tick mt q.2)).sum) := by
  induction l with
  | nil => simp [pairHeats]
  | cons q rest ih =>
    have hrest := ih (fun p hp => hdl p (List.mem_cons_of_mem q hp))
    by_cases hq : q.1 = s
    · rw [pairHeats, if_pos hq, hrest]
      simp [if_pos hq]
    · rw [pairHeats, if_neg hq,
        transfer_heat_some tick mt q.2 hdm (hdl q (List.mem_cons_self q rest)), hrest]
      simp [if_neg hq]

/-- With no environment the accumulated flow is exactly the pairwise
loop's result. -/
theorem heatFor_none (m : Mmap) (tick : ℚ) (s : Substance) (mt : Matter) :
    heatFor m tick s mt none = pairHeats tick s mt m := by
  unfold heatFor
  cases pairHeats tick s mt m with
  | none => rfl
  | some h => rfl

theorem add_heat_energy (mt : Matter) (h : ℚ)
    (hd : mt.amount * mt.substance.specific_heat ≠ 0) :
    ∃ nw, mt.add_heat h = some nw ∧ nw.internal_energy = mt.internal_energy + h ∧
      nw.amount = mt.amount ∧ nw.substance = mt.substance := by
  unfold Matter.add_heat
  by_cases h0 : h = 0
  · refine ⟨mt, by rw [if_pos h0], by rw [h0]; ring, rfl, rfl⟩
  · rw [if_neg h0, if_neg hd]
    refine ⟨_, rfl, ?_, rfl, rfl⟩
    unfold Matter.internal_energy
    show mt.amount * (mt.temperature + h / (mt.amount * mt.substance.specific_heat))
        * mt.substance.specific_heat = mt.amount * mt.temperature * mt.substance.specific_heat + h
    field_simp
    ring

theorem applyAllHeat_energy (m : Mmap) (tick : ℚ) (env : Option ℚ)
    (l : List (Substance × Matter))
    (hd : ∀ p ∈ l, p.2.amount * p.2.substance.specific_heat ≠ 0)
    (hf : ∀ p ∈ l, (heatFor m tick p.1 p.2 env).isSome) :
    ∃ out, applyAllHeat m tick env l = some out ∧
      (out.map (fun p => p.2.internal_energy)).sum =
        (l.map (fun p => p.2.internal_energy)).sum
          - (l.map (fun p => (heatFor m tick p.1 p.2 env).getD 0)).sum := by
  induction l with
  | nil => exact ⟨[], rfl, by simp⟩
  | cons p rest ih =>
    obtain ⟨out, hout, hsum⟩ := ih (fun q hq => hd q (List.mem_cons_of_mem p hq))
      (fun q hq => hf q (List.mem_cons_of_mem p hq))
    obtain ⟨h, hh⟩ := Option.isSome_iff_exists.mp (hf p (List.mem_cons_self p rest))
    obtain ⟨nw, hnw, hie, -, -⟩ :=
      add_heat_energy p.2 (-h) (hd p (List.mem_cons_self p rest))
    refine ⟨(p.1, nw) :: out, ?_, ?_⟩
    · rw [applyAllHeat, hh]
      dsimp only
      rw [hnw, hout]
    · simp only [List.map_cons, List.sum_cons, hsum, hie, hh, Option.getD_some]
      ring

/-- First substance of the claim C10 counterexample (density 1000). -/
def c10za : Substance := { id := 0, formula := ⟨[], 0⟩, density := 1000 }

/-- Second substance of the claim C10 counterexample: zero density, so
its volume computation divides by zero. -/
def c10zb : Substance := { id := 1, formula := ⟨[], 0⟩, density := 0 }

/-- Claim C10 counterexample system: positive amounts, nonzero specific
heats (the claim's stated preconditions), one zero-density substance. -/
def c10m : Mmap := [(c10za, ⟨c10za, 1, 50, 1⟩), (c10zb, ⟨c10zb, 1, 10, 1⟩)]

/-- Claim C10 (counterexample): the claim's preconditions (strictly
positive amounts, nonzero specific heats) do not exclude a zero-density
substance, and on such a system `transfer_heat` does not complete — the
first pairwise flow raises `ZeroDivisionError` inside `Matter.volume`
(embedded `none`) — so no post-call state exists whose internal energy
could equal the initial one. -/
theorem claim_C10_counterexample :
    (∀ p ∈ c10m, 0 < p.2.amount) ∧
    (∀ p ∈ c10m, p.2.substance.specific_heat ≠ 0) ∧
    transfer_heat c10m 1 none = none := by
  refine ⟨?_, ?_, ?_⟩
  · intro p hp
    rcases List.mem_cons.mp hp with rfl | hp2
    · norm_num
    · rcases List.mem_singleton.mp hp2 with rfl
      norm_num
  · intro p hp
    rcases List.mem_cons.mp hp with rfl | hp2
    · norm_num [c10za]
    · rcases List.mem_singleton.mp hp2 with rfl
      norm_num [c10zb]
  · norm_num [transfer_heat, applyAllHeat, heatFor, pairHeats, Matter.transfer_heat,
      Matter.volume, Matter.mass, c10m, c10za, c10zb]

/-- Claim C10 (amended): with the added precondition that every
substance's density is nonzero (so every `Matter.volume` is defined),
`ChemicalSystem.transfer_heat` with no environment succeeds and conserves
total internal energy in exact arithmetic: every defined pairwise flow is
antisymmetric (the geometric-mean coefficient and min overlap area are
symmetric, the temperature difference changes sign) and each matter's
accumulated flow is applied once by `add_heat` with negated sign. -/
theorem claim_C10_amended (m : Mmap) (tick : ℚ)
    (hpos : ∀ p ∈ m, 0 < p.2.amount)
    (hsh : ∀ p ∈ m, p.2.substance.specific_heat ≠ 0)
    (hdens : ∀ p ∈ m, p.2.substance.density ≠ 0) :
    (∀ a b : Matter, a.substance.density ≠ 0 → b.substance.density ≠ 0 →
      a.transfer_heat tick b = some (flowVal tick a b) ∧
      b.transfer_heat tick a = some (-flowVal tick a b)) ∧
    ∃ m', transfer_heat m tick none = some m' ∧
      totalInternalEnergy m' = totalInternalEnergy m := by
  constructor
  · intro a b hda hdb
    refine ⟨transfer_heat_some tick a b hda hdb, ?_⟩
    rw [transfer_heat_some tick b a hdb hda, flowVal_antisym tick b a]
  · have hfall : ∀ p ∈ m, heatFor m tick p.1 p.2 none =
        some ((m.map (fun q => if q.1 = p.1 then 0 else flowVal tick p.2 q.2)).sum) := by
      intro p hp
      rw [heatFor_none]
      exact pairHeats_some tick p.1 p.2 m (hdens p hp) hdens
    obtain ⟨out, hout, hsum⟩ := applyAllHeat_energy m tick none m
      (fun p hp => mul_ne_zero (ne_of_gt (hpos p hp)) (hsh p hp))
      (fun p hp => by rw [hfall p hp]; rfl)
    refine ⟨out, hout, ?_⟩
    unfold totalInternalEnergy
    rw [hsum]
    have hzero : (m.map (fun p => (heatFor m tick p.1 p.2 none).getD 0)).sum = 0 := by
      rw [List.map_congr_left (fun p hp => by rw [hfall p hp, Option.getD_some])]
      exact double_sum_antisym m
        (fun p q => if q.1 = p.1 then 0 else flowVal tick p.2 q.2)
        (by
          intro a b
          dsimp only
          by_cases hab : b.1 = a.1
          · rw [if_pos hab, if_pos hab.symm, neg_zero]
          · rw [if_neg hab, if_neg (fun hh => hab hh.symm)]
            exact flowVal_antisym tick a.2 b.2)
    rw [hzero]
    ring

/-- Witness for the amended claim C10: a two-matter system (amounts 2 and
1, temperatures 50 and 10, specific heat 75, densities 1000 and 500)
conserves its internal-energy total under environment-free diffusion. -/
theorem claim_C10_witness :
    (∀ a b : Matter, a.substance.density ≠ 0 → b.substance.density ≠ 0 →
      a.transfer_heat 1 b = some (flowVal 1 a b) ∧
      b.transfer_heat 1 a = some (-flowVal 1 a b)) ∧
    ∃ m', transfer_heat
        [(⟨0, ⟨[], 0⟩, 1000, PState.liquid, 0, 75, 1, "transparent", none⟩,
          ⟨⟨0, ⟨[], 0⟩, 1000, PState.liquid, 0, 75, 1, "transparent", none⟩, 2, 50, 1⟩),
          (⟨1, ⟨[], 0⟩, 500, PState.liquid, 0, 75, 1, "transparent", none⟩,
          ⟨⟨1, ⟨[], 0⟩, 500, PState.liquid, 0, 75, 1, "transparent", none⟩, 1, 10, 1⟩)] 1 none = some m' ∧
      totalInternalEnergy m' = totalInternalEnergy
        [(⟨0, ⟨[], 0⟩, 1000, PState.liquid, 0, 75, 1, "transparent", none⟩,
          ⟨⟨0, ⟨[], 0⟩, 1000, PState.liquid, 0, 75, 1, "transparent", none⟩, 2, 50, 1⟩),
          (⟨1, ⟨[], 0⟩, 500, PState.liquid, 0, 75, 1, "transparent", none⟩,
          ⟨⟨1, ⟨[], 0⟩, 500, PState.liquid, 0, 75, 1, "transparent", none⟩, 1, 10, 1⟩)] :=
  claim_C10_amended _ 1
    (by
      intro p hp
      rcases List.mem_cons.mp hp with rfl | hp2
      · norm_num
      · rcases List.mem_singleton.mp hp2 with rfl
        norm_num)
    (by
      intro p hp
      rcases List.mem_cons.mp hp with rfl | hp2
      · norm_num
      · rcases List.mem_singleton.mp hp2 with rfl
        norm_num)
    (by
      intro p hp
      rcases List.mem_cons.mp hp with rfl | hp2
      · norm_num
      · rcases List.mem_singleton.mp hp2 with rfl
        norm_num)

/-! ### Claim C1: sum helpers and element-to-mass accounting -/

theorem sum_map_mul_leftQ {α : Type} (l : List α) (f : α → ℚ) (x : ℚ) :
    (l.map (fun a => x * f a)).sum = x * (l.map f).sum := by
  induction l with
  | nil => simp
  | cons y rest ih => simp [ih]; ring

theorem sum_swapQ {α β : Type} (A : List α) (B : List β) (f : α → β → ℚ) :
    (A.map (fun a => (B.map (fun b => f a b)).sum)).sum =
      (B.map (fun b => (A.map (fun a => f a b)).sum)).sum := by
  induction A with
  | nil =>
    simp only [List.map_nil, List.sum_nil]
    symm
    apply List.sum_eq_zero
    intro x hx
    obtain ⟨b, -, rfl⟩ := List.mem_map.mp hx
    rfl
  | cons x rest ih =>
    simp only [List.map_cons, List.sum_cons, ih, ← sum_map_addQ]

theorem sum_if_singleQ {α : Type} [DecidableEq α] (E : List α) (e : α) (x : ℚ)
    (hnd : E.Nodup) (he : e ∈ E) :
    (E.map (fun a => if e = a then x else 0)).sum = x := by
  induction E with
  | nil => cases he
  | cons y rest ih =>
    have hy : y ∉ rest := (List.nodup_cons.mp hnd).1
    have hnr : rest.Nodup := (List.nodup_cons.mp hnd).2
    rcases List.mem_cons.mp he with rfl | hmem
    · have hz : (rest.map (fun a => if e = a then x else 0)).sum = 0 := by
        apply List.sum_eq_zero
        intro z hz
        obtain ⟨a, ha, rfl⟩ := List.mem_map.mp hz
        refine if_neg ?_
        rintro rfl
        exact hy ha
      simp [hz]
    · have hne : e ≠ y := by
        rintro rfl
        exact hy hmem
      simp only [List.map_cons, List.sum_cons, if_neg hne]
      rw [ih hnr hmem]
      ring

theorem countOf_eq_sum (s : Substance) (e : Element)
    (hnd : (s.formula.element_count.map Prod.fst).Nodup) :
    ((countOf s e : Int) : ℚ) =
      (s.formula.element_count.map (fun q => if q.1 = e then (q.2 : ℚ) else 0)).sum := by
  unfold countOf
  generalize s.formula.element_count = l at hnd ⊢
  induction l with
  | nil => simp [lookupE]
  | cons q rest ih =>
    have hq : q.1 ∉ rest.map Prod.fst := (List.nodup_cons.mp hnd).1
    have hnr : (rest.map Prod.fst).Nodup := (List.nodup_cons.mp hnd).2
    by_cases hqe : q.1 = e
    · rw [lookupE, if_pos hqe]
      simp only [List.map_cons, List.sum_cons, if_pos hqe, Option.getD_some]
      have hz : (rest.map (fun p => if p.1 = e then (p.2 : ℚ) else 0)).sum = 0 := by
        apply List.sum_eq_zero
        intro z hz
        obtain ⟨p, hp, rfl⟩ := List.mem_map.mp hz
        refine if_neg (fun hh => hq ?_)
        rw [hqe, ← hh]
        exact List.mem_map_of_mem Prod.fst hp
      rw [hz]
      ring
    · rw [lookupE, if_neg hqe]
      simp only [List.map_cons, List.sum_cons, if_neg hqe]
      rw [← ih hnr]
      ring

/-- A substance's relative mass decomposed as a sum over any duplicate-free
element enumeration covering its formula. -/
theorem rel_eq_sumE (s : Substance) (E : List Element)
    (hnd : (s.formula.element_count.map Prod.fst).Nodup)
    (hEnd : E.Nodup)
    (hsub : ∀ q ∈ s.formula.element_count, q.1 ∈ E) :
    s.relative_mass = (E.map (fun e => e.relative_mass * ((countOf s e : Int) : ℚ))).sum := by
  have h1 : ∀ e ∈ E, e.relative_mass * ((countOf s e : Int) : ℚ) =
      (s.formula.element_count.map (fun q => if q.1 = e then e.relative_mass * (q.2 : ℚ) else 0)).sum := by
    intro e _
    rw [countOf_eq_sum s e hnd, ← sum_map_mul_leftQ]
    congr 1
    apply List.map_congr_left
    intro q _
    by_cases hq : q.1 = e
    · rw [if_pos hq, if_pos hq]
    · rw [if_neg hq, if_neg hq]
      ring
  rw [List.map_congr_left h1, sum_swapQ]
  have h2 : ∀ q ∈ s.formula.element_count,
      (E.map (fun e => if q.1 = e then e.relative_mass * (q.2 : ℚ) else 0)).sum =
        q.1.relative_mass * (q.2 : ℚ) := by
    intro q hq
    have : ∀ e ∈ E, (if q.1 = e then e.relative_mass * (q.2 : ℚ) else 0) =
        (if q.1 = e then q.1.relative_mass * (q.2 : ℚ) else 0) := by
      intro e _
      by_cases hh : q.1 = e
      · rw [if_pos hh, if_pos hh, hh]
      · rw [if_neg hh, if_neg hh]
    rw [List.map_congr_left this]
    exact sum_if_singleQ E q.1 _ hEnd (hsub q hq)
  rw [List.map_congr_left h2]
  rfl

/-- Mass-weighted side sum decomposed over a covering element list. -/
theorem side_mass_eq (side : List (Substance × ℚ)) (E : List Element)
    (hEnd : E.Nodup)
    (hforms : ∀ p ∈ side, ((p.1.formula.element_count.map Prod.fst).Nodup ∧
      ∀ q ∈ p.1.formula.element_count, q.1 ∈ E)) :
    (side.map (fun p => p.2 * p.1.relative_mass)).sum =
      (E.map (fun e => e.relative_mass *
        (side.map (fun p => p.2 * ((countOf p.1 e : Int) : ℚ))).sum)).sum := by
  have h1 : ∀ p ∈ side, p.2 * p.1.relative_mass =
      (E.map (fun e => p.2 * (e.relative_mass * ((countOf p.1 e : Int) : ℚ)))).sum := by
    intro p hp
    rw [sum_map_mul_leftQ, ← rel_eq_sumE p.1 E (hforms p hp).1 hEnd (hforms p hp).2]
  rw [List.map_congr_left h1, sum_swapQ]
  congr 1
  apply List.map_congr_left
  intro e _
  rw [← sum_map_mul_leftQ]
  congr 1
  apply List.map_congr_left
  intro p _
  ring

/-- Total element-weighted mass of the system: sum over all entries of
amount times the substance's relative mass (the claim's quantity;
`Matter.mass` is this value divided by 1000 per entry). -/
def totalMass (m : Mmap) : ℚ :=
  (m.map (fun p => p.2.amount * p.2.substance.relative_mass)).sum

/-- Mass contribution of one matter entry. -/
def massTerm (mt : Matter) : ℚ := mt.amount * mt.substance.relative_mass

theorem merge_shape (cur mt nw : Matter) (h : cur.merge mt = some nw) :
    mt.substance = cur.substance ∧ nw.substance = cur.substance ∧
      nw.amount = cur.amount + mt.amount := by
  unfold Matter.merge at h
  by_cases hsub : mt.substance ≠ cur.substance
  · rw [if_pos hsub] at h; cases h
  · rw [if_neg hsub] at h
    push_neg at hsub
    dsimp only at h
    by_cases htmp : cur.temperature ≠ mt.temperature
    · rw [if_pos htmp] at h
      by_cases hz : (cur.amount + mt.amount) * cur.substance.specific_heat = 0
      · rw [if_pos hz] at h; cases h
      · rw [if_neg hz] at h
        simp only [Option.some.injEq] at h
        rw [← h]
        exact ⟨hsub, rfl, rfl⟩
    · rw [if_neg htmp] at h
      simp only [Option.some.injEq] at h
      rw [← h]
      exact ⟨hsub, rfl, rfl⟩

theorem add_heat_shape (mt : Matter) (x : ℚ) (nw : Matter)
    (h : mt.add_heat x = some nw) :
    nw.substance = mt.substance ∧ nw.amount = mt.amount := by
  unfold Matter.add_heat at h
  by_cases h0 : x = 0
  · rw [if_pos h0] at h
    simp only [Option.some.injEq] at h
    rw [← h]
    exact ⟨rfl, rfl⟩
  · rw [if_neg h0] at h
    by_cases hz : mt.amount * mt.substance.specific_heat = 0
    · rw [if_pos hz] at h; cases h
    · rw [if_neg hz] at h
      simp only [Option.some.injEq] at h
      rw [← h]
      exact ⟨rfl, rfl⟩

theorem remove_shape (cur mt nw : Matter) (h : cur.remove mt = some nw)
    (hgt : ¬ nw.amount ≤ AMOUNT_CLEAR) :
    mt.substance = cur.substance ∧ nw.substance = cur.substance ∧
      nw.amount = cur.amount - mt.amount := by
  unfold Matter.remove at h
  by_cases hsub : mt.substance ≠ cur.substance
  · rw [if_pos hsub] at h; cases h
  · rw [if_neg hsub] at h
    push_neg at hsub
    dsimp only at h
    by_cases hle : cur.amount - mt.amount ≤ 0
    · rw [if_pos hle] at h
      simp only [Option.some.injEq] at h
      exfalso
      apply hgt
      rw [← h]
      show (0 : ℚ) ≤ AMOUNT_CLEAR
      norm_num [AMOUNT_CLEAR]
    · rw [if_neg hle] at h
      by_cases htmp : cur.temperature ≠ mt.temperature
      · rw [if_pos htmp] at h
        by_cases hz : (cur.amount - mt.amount) * cur.substance.specific_heat = 0
        · rw [if_pos hz] at h; cases h
        · rw [if_neg hz] at h
          simp only [Option.some.injEq] at h
          rw [← h]
          exact ⟨hsub, rfl, rfl⟩
      · rw [if_neg htmp] at h
        simp only [Option.some.injEq] at h
        rw [← h]
        exact ⟨hsub, rfl, rfl⟩

theorem totalMass_setS (m : Mmap) (s : Substance) (v cur : Matter)
    (h : lookupS m s = some cur) :
    totalMass (setS m s v) = totalMass m - massTerm cur + massTerm v := by
  induction m with
  | nil => cases h
  | cons p rest ih =>
    by_cases hp : p.1 = s
    · rw [lookupS, if_pos hp] at h
      simp only [Option.some.injEq] at h
      subst h
      simp only [setS, if_pos hp, totalMass, List.map_cons, List.sum_cons, massTerm]
      ring
    · rw [lookupS, if_neg hp] at h
      simp only [setS, if_neg hp, totalMass, List.map_cons, List.sum_cons]
      have := ih h
      simp only [totalMass] at this
      rw [this]
      ring

theorem totalMass_eraseS (m : Mmap) (s : Substance) (cur : Matter)
    (h : lookupS m s = some cur) :
    totalMass (eraseS m s) = totalMass m - massTerm cur := by
  induction m with
  | nil => cases h
  | cons p rest ih =>
    by_cases hp : p.1 = s
    · rw [lookupS, if_pos hp] at h
      simp only [Option.some.injEq] at h
      subst h
      simp only [eraseS, if_pos hp, totalMass, List.map_cons, List.sum_cons, massTerm]
      ring
    · rw [lookupS, if_neg hp] at h
      simp only [eraseS, if_neg hp, totalMass, List.map_cons, List.sum_cons]
      have := ih h
      simp only [totalMass] at this
      rw [this]
      ring

theorem applyAdds_mass (l : List Matter) (m m' : Mmap)
    (h : applyAdds m l = some m') :
    totalMass m' = totalMass m + (l.map massTerm).sum := by
  induction l generalizing m with
  | nil =>
    simp only [applyAdds, Option.some.injEq] at h
    rw [← h]
    simp [totalMass]
  | cons mt rest ih =>
    rw [applyAdds] at h
    cases hlu : lookupS m mt.substance with
    | none =>
      rw [hlu] at h
      rw [ih _ h]
      simp only [totalMass, List.map_append, List.sum_append, List.map_cons, List.sum_cons,
        List.map_nil, List.sum_nil, massTerm]
      ring
    | some cur =>
      rw [hlu] at h
      dsimp only at h
      cases hmg : cur.merge mt with
      | none => rw [hmg] at h; cases h
      | some merged =>
        rw [hmg] at h
        obtain ⟨hs1, hs2, hs3⟩ := merge_shape cur mt merged hmg
        rw [ih _ h, totalMass_setS m mt.substance merged cur hlu]
        simp only [List.map_cons, List.sum_cons, massTerm, hs2, hs3, hs1]
        ring

theorem applyHeats_mass (l : List (Substance × ℚ)) (m m' : Mmap)
    (h : applyHeats m l = some m') :
    totalMass m' = totalMass m := by
  induction l generalizing m with
  | nil =>
    simp only [applyHeats, Option.some.injEq] at h
    rw [← h]
  | cons p rest ih =>
    rw [applyHeats] at h
    cases hlu : lookupS m p.1 with
    | none => rw [hlu] at h; cases h
    | some cur =>
      rw [hlu] at h
      dsimp only at h
      cases hah : cur.add_heat p.2 with
      | none => rw [hah] at h; cases h
      | some nw =>
        rw [hah] at h
        obtain ⟨hs1, hs2⟩ := add_heat_shape cur p.2 nw hah
        rw [ih _ h, totalMass_setS m p.1 nw cur hlu]
        simp only [massTerm, hs1, hs2]
        ring

theorem applyRemoves_mass (l : List Matter) (m m' : Mmap)
    (hnd : keysNodup m)
    (h : applyRemoves m l = some m')
    (hpres : ∀ mt ∈ l, (lookupS m' mt.substance).isSome) :
    totalMass m' = totalMass m - (l.map massTerm).sum := by
  induction l generalizing m with
  | nil =>
    simp only [applyRemoves, Option.some.injEq] at h
    rw [← h]
    simp
  | cons mt rest ih =>
    rw [applyRemoves] at h
    cases hlu : lookupS m mt.substance with
    | none => rw [hlu] at h; cases h
    | some cur =>
      rw [hlu] at h
      dsimp only at h
      cases hrm : cur.remove mt with
      | none => rw [hrm] at h; cases h
      | some nw =>
        rw [hrm] at h
        dsimp only at h
        by_cases hcl : nw.amount ≤ AMOUNT_CLEAR
        · exfalso
          rw [if_pos hcl] at h
          have habs : lookupS m' mt.substance = none := by
            apply applyRemoves_none rest _ m' mt.substance ?_ h
            exact lookup_eraseS_self _ _ (keysNodup_setS _ _ _ hnd)
          have := hpres mt (List.mem_cons_self mt rest)
          rw [habs] at this
          cases this
        · rw [if_neg hcl] at h
          obtain ⟨hs1, hs2, hs3⟩ := remove_shape cur mt nw hrm hcl
          have hnd1 : keysNodup (setS m mt.substance nw) := keysNodup_setS _ _ _ hnd
          rw [ih _ hnd1 h (fun q hq => hpres q (List.mem_cons_of_mem mt hq))]
          rw [totalMass_setS m mt.substance nw cur hlu]
          simp only [List.map_cons, List.sum_cons, massTerm, hs1, hs2, hs3]
          ring

theorem applyAllHeat_mass (m : Mmap) (tick : ℚ) (env : Option ℚ)
    (l : List (Substance × Matter)) (out : Mmap)
    (h : applyAllHeat m tick env l = some out) :
    totalMass out = totalMass l := by
  induction l generalizing out with
  | nil =>
    simp only [applyAllHeat, Option.some.injEq] at h
    rw [← h]
  | cons p rest ih =>
    rw [applyAllHeat] at h
    cases hhf : heatFor m tick p.1 p.2 env with
    | none => rw [hhf] at h; cases h
    | some hv =>
      rw [hhf] at h
      dsimp only at h
      cases hah : p.2.add_heat (-hv) with
      | none => rw [hah] at h; cases h
      | some nw =>
        rw [hah] at h
        cases hrec : applyAllHeat m tick env rest with
        | none => rw [hrec] at h; cases h
        | some out2 =>
          rw [hrec] at h
          simp only [Option.some.injEq] at h
          obtain ⟨hs1, hs2⟩ := add_heat_shape p.2 _ nw hah
          rw [← h]
          simp only [totalMass, List.map_cons, List.sum_cons]
          have := ih out2 hrec
          simp only [totalMass] at this
          rw [this, hs1, hs2]

theorem applyAllHeat_keys (m : Mmap) (tick : ℚ) (env : Option ℚ)
    (l : List (Substance × Matter)) (out : Mmap)
    (h : applyAllHeat m tick env l = some out) :
    out.map Prod.fst = l.map Prod.fst := by
  induction l generalizing out with
  | nil =>
    simp only [applyAllHeat, Option.some.injEq] at h
    rw [← h]
  | cons p rest ih =>
    rw [applyAllHeat] at h
    cases hhf : heatFor m tick p.1 p.2 env with
    | none => rw [hhf] at h; cases h
    | some hv =>
      rw [hhf] at h
      dsimp only at h
      cases hah : p.2.add_heat (-hv) with
      | none => rw [hah] at h; cases h
      | some nw =>
        rw [hah] at h
        cases hrec : applyAllHeat m tick env rest with
        | none => rw [hrec] at h; cases h
        | some out2 =>
          rw [hrec] at h
          simp only [Option.some.injEq] at h
          rw [← h]
          simp only [List.map_cons, ih out2 hrec]

theorem leftScan_mass (matters : Mmap) (mult : ℚ) (l : List (Substance × ℚ))
    (removes : List Matter) (te tn asum : ℚ)
    (h : leftScan matters mult l = some (removes, te, tn, asum)) :
    (removes.map massTerm).sum = mult * (l.map (fun p => p.2 * p.1.relative_mass)).sum := by
  induction l generalizing removes te tn asum with
  | nil =>
    simp only [leftScan, Option.some.injEq, Prod.mk.injEq] at h
    obtain ⟨h1, -, -, -⟩ := h
    subst h1
    simp
  | cons p rest ih =>
    rw [leftScan] at h
    cases hlu : lookupS matters p.1 with
    | none => rw [hlu] at h; cases h
    | some mt =>
      rw [hlu] at h
      cases hrec : leftScan matters mult rest with
      | none => rw [hrec] at h; cases h
      | some q =>
        obtain ⟨rm, te2, tn2, as2⟩ := q
        rw [hrec] at h
        simp only [Option.some.injEq, Prod.mk.injEq] at h
        obtain ⟨h1, -, -, -⟩ := h
        subst h1
        simp only [List.map_cons, List.sum_cons, massTerm, ih rm te2 tn2 as2 hrec]
        show p.2 * mult * p.1.relative_mass + mult * _ = _
        ring

theorem addsList_mass (right : List (Substance × ℚ)) (mult rT : ℚ) :
    ((right.map (fun p => (⟨p.1, p.2 * mult, rT, 1⟩ : Matter))).map massTerm).sum =
      mult * (right.map (fun p => p.2 * p.1.relative_mass)).sum := by
  induction right with
  | nil => simp
  | cons p rest ih =>
    simp only [List.map_cons, List.sum_cons, massTerm, ih]
    show p.2 * mult * p.1.relative_mass + mult * _ = _
    ring

/-- A single reaction change is mass-balanced when the reaction conserves
every element's atom count. -/
theorem reaction_mass (matters : Mmap) (r : Reaction) (tick : ℚ) (ch : MatterChange)
    (h : reaction_process matters r tick = some ch)
    (hcons : ∀ e : Element,
      (r.left.map (fun p => p.2 * ((countOf p.1 e : Int) : ℚ))).sum =
        (r.right.map (fun p => p.2 * ((countOf p.1 e : Int) : ℚ))).sum)
    (hform : ∀ p ∈ r.left ++ r.right, (p.1.formula.element_count.map Prod.fst).Nodup) :
    (ch.add_matter.map massTerm).sum = (ch.remove_matter.map massTerm).sum := by
  have key : (r.left.map (fun p => p.2 * p.1.relative_mass)).sum =
      (r.right.map (fun p => p.2 * p.1.relative_mass)).sum := by
    have hEnd : ((((r.left ++ r.right).map
        (fun p => p.1.formula.element_count.map Prod.fst)).flatten).dedup).Nodup :=
      List.nodup_dedup _
    have hcover : ∀ p ∈ r.left ++ r.right, ∀ q ∈ p.1.formula.element_count,
        q.1 ∈ (((r.left ++ r.right).map
          (fun p => p.1.formula.element_count.map Prod.fst)).flatten).dedup := by
      intro p hp q hq
      rw [List.mem_dedup]
      apply List.mem_flatten.mpr
      exact ⟨p.1.formula.element_count.map Prod.fst,
        List.mem_map_of_mem _ hp, List.mem_map_of_mem Prod.fst hq⟩
    rw [side_mass_eq r.left _ hEnd
        (fun p hp => ⟨hform p (List.mem_append_left _ hp), hcover p (List.mem_append_left _ hp)⟩),
      side_mass_eq r.right _ hEnd
        (fun p hp => ⟨hform p (List.mem_append_right _ hp), hcover p (List.mem_append_right _ hp)⟩)]
    congr 1
    apply List.map_congr_left
    intro e _
    rw [hcons e]
  by_cases hmul : r.speed_multiplier tick r.left r.right matters = 0
  · simp only [reaction_process, if_pos hmul, Option.some.injEq] at h
    rw [← h]
  · simp only [reaction_process, if_neg hmul] at h
    cases hls : leftScan matters (r.speed_multiplier tick r.left r.right matters) r.left with
    | none => rw [hls] at h; cases h
    | some q =>
      obtain ⟨removes, te1, tn, asum⟩ := q
      rw [hls] at h
      dsimp only at h
      by_cases hz : asum = 0
      · rw [if_pos hz] at h; cases h
      · rw [if_neg hz] at h
        cases hma : matterAmountSum matters r.left with
        | none => rw [hma] at h; cases h
        | some ma =>
          rw [hma] at h
          dsimp only at h
          by_cases hmz : ma = 0
          · rw [if_pos hmz] at h; cases h
          · rw [if_neg hmz] at h
            cases hhe : heatEntries matters
                (te1 - ((r.right.map (fun p =>
                  (⟨p.1, p.2 * r.speed_multiplier tick r.left r.right matters, tn / asum, 1⟩ : Matter))).map
                    Matter.energy).sum) ma r.left with
            | none => rw [hhe] at h; cases h
            | some heats =>
              rw [hhe] at h
              simp only [Option.some.injEq] at h
              rw [← h]
              show ((r.right.map _).map massTerm).sum = (removes.map massTerm).sum
              rw [addsList_mass, leftScan_mass matters _ r.left removes te1 tn asum hls, key]

/-- The aggregate tick change is mass-balanced when every reaction in the
tick conserves every element. -/
theorem tickChange_mass (m : Mmap) (tick : ℚ) (rs : List Reaction) (ch : MatterChange)
    (h : tickChange m tick rs = some ch)
    (hcons : ∀ r ∈ rs, ∀ e : Element,
      (r.left.map (fun p => p.2 * ((countOf p.1 e : Int) : ℚ))).sum =
        (r.right.map (fun p => p.2 * ((countOf p.1 e : Int) : ℚ))).sum)
    (hform : ∀ r ∈ rs, ∀ p ∈ r.left ++ r.right,
      (p.1.formula.element_count.map Prod.fst).Nodup) :
    (ch.add_matter.map massTerm).sum = (ch.remove_matter.map massTerm).sum := by
  induction rs generalizing ch with
  | nil =>
    simp only [tickChange, Option.some.injEq] at h
    rw [← h]
  | cons r rest ih =>
    rw [tickChange] at h
    cases hrp : reaction_process m r tick with
    | none => rw [hrp] at h; cases h
    | some c =>
      rw [hrp] at h
      cases hrec : tickChange m tick rest with
      | none => rw [hrec] at h; cases h
      | some cs =>
        rw [hrec] at h
        simp only [Option.some.injEq] at h
        rw [← h]
        simp only [MatterChange.extend, List.map_append, List.sum_append]
        rw [reaction_mass m r tick c hrp (hcons r (List.mem_cons_self r rest))
            (hform r (List.mem_cons_self r rest)),
          ih cs hrec (fun q hq => hcons q (List.mem_cons_of_mem r hq))
            (fun q hq => hform q (List.mem_cons_of_mem r hq))]

/-- Claim C1: one tick of `ChemicalSystem.run` conserves the total
element-weighted mass when every reaction conserves every element's atom
count, no entry is deleted by the clearing-epsilon check (every removed
substance is still present afterwards), and the tick completes without a
zero denominator or missing key (`run` returns `some`). -/
theorem claim_C1 (m : Mmap) (reactions : List Reaction) (tick : ℚ) (env : Option ℚ)
    (m' : Mmap) (ch : MatterChange)
    (hnd : keysNodup m)
    (hch : tickChange m tick reactions = some ch)
    (hrun : run m reactions tick env = some m')
    (hcons : ∀ r ∈ reactions, ∀ e : Element,
      (r.left.map (fun p => p.2 * ((countOf p.1 e : Int) : ℚ))).sum =
        (r.right.map (fun p => p.2 * ((countOf p.1 e : Int) : ℚ))).sum)
    (hform : ∀ r ∈ reactions, ∀ p ∈ r.left ++ r.right,
      (p.1.formula.element_count.map Prod.fst).Nodup)
    (hnopop : ∀ mt ∈ ch.remove_matter, (lookupS m' mt.substance).isSome) :
    totalMass m' = totalMass m := by
  rw [run, hch] at hrun
  dsimp only at hrun
  cases hac : apply_changes m ch with
  | none => rw [hac] at hrun; cases hrun
  | some m1 =>
    rw [hac] at hrun
    have hkeys : m'.map Prod.fst = m1.map Prod.fst :=
      applyAllHeat_keys m1 tick env m1 m' hrun
    have hnopop1 : ∀ mt ∈ ch.remove_matter, (lookupS m1 mt.substance).isSome := by
      intro mt hmt
      have h1 := hnopop mt hmt
      cases ho : lookupS m1 mt.substance with
      | none =>
        exfalso
        have hmem : mt.substance ∉ m1.map Prod.fst := (lookupS_none_iff m1 mt.substance).mp ho
        have h2 : lookupS m' mt.substance = none :=
          (lookupS_none_iff m' mt.substance).mpr (by rw [hkeys]; exact hmem)
        rw [h2] at h1
        cases h1
      | some cur => rfl
    rw [apply_changes] at hac
    cases ha : applyAdds m ch.add_matter with
    | none => rw [ha] at hac; cases hac
    | some ma =>
      rw [ha] at hac
      dsimp only at hac
      cases hh : applyHeats ma ch.add_heat with
      | none => rw [hh] at hac; cases hac
      | some mh =>
        rw [hh] at hac
        dsimp only at hac
        have hnda : keysNodup ma := applyAdds_nodup _ m ma hnd ha
        have hndh : keysNodup mh := by
          unfold keysNodup
          rw [applyHeats_keys ch.add_heat ma mh hh]
          exact hnda
        have hmass_rm := applyRemoves_mass ch.remove_matter mh m1 hndh hac hnopop1
        have hmass_add := applyAdds_mass ch.add_matter m ma ha
        have hmass_heat := applyHeats_mass ch.add_heat ma mh hh
        have hmass_tr : totalMass m' = totalMass m1 :=
          applyAllHeat_mass m1 tick env m1 m' hrun
        have hbal := tickChange_mass m tick reactions ch hch hcons hform
        rw [hmass_tr, hmass_rm, hmass_heat, hmass_add]
        rw [← hbal]
        ring

/-- Element of the claim C1 witness system. -/
def w1e : Element := ⟨0, 10⟩

/-- Reactant substance of the claim C1 witness (relative mass 10). -/
def w1sA : Substance := { id := 0, formula := ⟨[(w1e, 1)], 0⟩, density := 1000 }

/-- Product substance of the claim C1 witness (same formula, so the
one-to-one reaction conserves the single element). -/
def w1sB : Substance := { id := 1, formula := ⟨[(w1e, 1)], 0⟩, density := 1000 }

/-- Claim C1 witness system: 2 mol of the reactant at temperature 20. -/
def w1m : Mmap := [(w1sA, ⟨w1sA, 2, 20, 1⟩)]

/-- Claim C1 witness reaction: A -> B at base rate 1. -/
def w1rx : Reaction := ⟨[(w1sA, 1)], [(w1sB, 1)], speed_multiplier_factory 1 (-200) 1000000⟩

/-- Post-tick state of the claim C1 witness: 1 mol of each substance. -/
def w1final : Mmap := [(w1sA, ⟨w1sA, 1, 20, 1⟩), (w1sB, ⟨w1sB, 1, 20, 1⟩)]

/-- Tick change of the claim C1 witness. -/
def w1ch : MatterChange :=
  ⟨[⟨w1sB, 1, 20, 1⟩], [⟨w1sA, 1, 20, 1⟩], [(w1sA, 0)]⟩

/-- Witness for claim C1: one tick converting 1 of 2 mol of A into B
(equal formulas) keeps the total mass at 20. -/
theorem claim_C1_witness : totalMass w1final = totalMass w1m :=
  claim_C1 w1m [w1rx] 1 none w1final w1ch
    (by simp [keysNodup, w1m])
    (by norm_num [tickChange, w1ch, reaction_process, w1rx, w1m, w1sA, w1sB, w1e,
      speed_multiplier_factory, speedLoop1, speedLoop2, amountOf, lookupS, leftScan,
      matterAmountSum, heatEntries, Matter.energy, Matter.internal_energy,
      Matter.chemical_energy, MatterChange.extend, min_def])
    (by norm_num [run, tickChange, w1final, reaction_process, w1rx, w1m, w1sA, w1sB, w1e,
      speed_multiplier_factory, speedLoop1, speedLoop2, amountOf, lookupS, leftScan,
      matterAmountSum, heatEntries, Matter.energy, Matter.internal_energy,
      Matter.chemical_energy, MatterChange.extend, min_def,
      apply_changes, applyAdds, applyHeats, applyRemoves, setS, eraseS,
      Matter.merge, Matter.remove, Matter.add_heat, AMOUNT_CLEAR,
      transfer_heat, applyAllHeat, heatFor, pairHeats, Matter.transfer_heat,
      Matter.transfer_heat_environment, Matter.volume, Matter.mass,
      Substance.relative_mass, Formula.relative_mass])
    (by
      intro r hr e
      rcases List.mem_singleton.mp hr with rfl
      simp [w1rx, w1sA, w1sB, countOf])
    (by
      intro r hr p hp
      rcases List.mem_singleton.mp hr with rfl
      simp only [w1rx] at hp
      rcases List.mem_cons.mp hp with rfl | hp2
      · simp [w1sA, w1e]
      · rcases List.mem_singleton.mp hp2 with rfl
        simp [w1sB, w1e])
    (by
      intro mt hmt
      simp only [w1ch] at hmt
      rcases List.mem_singleton.mp hmt with rfl
      norm_num [lookupS, w1final, w1sA, w1sB, w1e])

end Chem
